import Mathlib

/-
  Verification development for the web-imu-to-usb-streamer repository.

  The repository streams IMU telemetry (six floats per record) from a
  browser, over WebUSB/UART, onto a CAN bus.  The core logic modelled here:

  * src/pico/src/main.cpp  — WebUSB hop: byte forwarding to UART2, line
    assembly into an Arduino String, trim + "ping" control word, CSV split
    into up to six tokens, and sendIMUtoCAN packing three 8-byte CAN
    frames (IDs 0x501..0x503), replying ACK / ERR:NO_CAN_INIT /
    ERR:CAN_SEND over WebUSB; a periodic HEARTBEAT gated on the link
    state, and a UART2→WebUSB relay gated on the link state.

  * src/stm32/src/main.cpp — terminal hop: a 128-byte fixed line buffer
    (127 data bytes plus NUL), '\n' and '\r' both acting as terminators,
    empty lines dropped, and a four-frame CAN layout
    (0x501:(alpha,beta) 8B, 0x502:(gamma) 4B, 0x503:(x,y) 8B,
     0x504:(z) 4B).

  32-bit floats are modelled by their bit patterns: natural numbers below
  2^32.  The Arduino toFloat / C strtod conversion is kept abstract as a
  function from token characters to a bit pattern; where a claim needs a
  property of the real conversion (numeric parsing stops at a comma) that
  property is an explicit hypothesis.  memcpy of a float is modelled as
  the four little-endian bytes of the bit pattern.
-/

/-- One byte of a CAN payload: a natural number below 256 in all frames
built here. -/
abbrev Byte := Nat

/-- A CAN frame as constructed by the firmware: identifier, declared
length, payload bytes. -/
structure CanFrame where
  id : Nat
  len : Nat
  data : List Byte
deriving DecidableEq, Repr

/-- The little-endian bytes of a 32-bit word, as memcpy of a float
produces on these little-endian MCUs. -/
def word32ToBytes (w : Nat) : List Byte :=
  [w % 256, w / 256 % 256, w / 65536 % 256, w / 16777216 % 256]

/-- Reinterpret a byte sequence as consecutive little-endian 32-bit
words (the depacketizing direction of the round-trip property). -/
def bytesToWords : List Byte → List Nat
  | b0 :: b1 :: b2 :: b3 :: rest =>
      (b0 + 256 * b1 + 65536 * b2 + 16777216 * b3) :: bytesToWords rest
  | _ => []

/-- A telemetry record: the six 32-bit float fields, as bit patterns. -/
structure IMURecord where
  alpha : Nat
  beta : Nat
  gamma : Nat
  ax : Nat
  ay : Nat
  az : Nat
deriving DecidableEq, Repr

/-- The six fields of a record in protocol order. -/
def recordWords (r : IMURecord) : List Nat :=
  [r.alpha, r.beta, r.gamma, r.ax, r.ay, r.az]

/-- Build a record from the vals array of the pico loop: vals is
zero-initialised and filled left to right, so missing entries are 0. -/
def recordOfVals (vs : List Nat) : IMURecord :=
  ⟨vs.getD 0 0, vs.getD 1 0, vs.getD 2 0, vs.getD 3 0, vs.getD 4 0, vs.getD 5 0⟩

/-- The identifiers of a frame sequence. -/
def frameIds (fs : List CanFrame) : List Nat := fs.map CanFrame.id

/-- The declared lengths of a frame sequence. -/
def frameLens (fs : List CanFrame) : List Nat := fs.map CanFrame.len

/-- The concatenated payload bytes of a frame sequence. -/
def payloadBytes (fs : List CanFrame) : List Byte := (fs.map CanFrame.data).flatten

/-- The three frames built by sendIMUtoCAN in src/pico/src/main.cpp
lines 32-48: 0x501 carries (alpha,beta), 0x502 carries (gamma,ax),
0x503 carries (ay,az), each 8 bytes. -/
def picoFrames (r : IMURecord) : List CanFrame :=
  [⟨0x501, 8, word32ToBytes r.alpha ++ word32ToBytes r.beta⟩,
   ⟨0x502, 8, word32ToBytes r.gamma ++ word32ToBytes r.ax⟩,
   ⟨0x503, 8, word32ToBytes r.ay ++ word32ToBytes r.az⟩]

/-- The four frames built by handle_serial_data in
src/stm32/src/main.cpp lines 13-27: 0x501 (alpha,beta) 8 bytes,
0x502 (gamma) 4 bytes, 0x503 (ax,ay) 8 bytes, 0x504 (az) 4 bytes. -/
def stm32Frames (r : IMURecord) : List CanFrame :=
  [⟨0x501, 8, word32ToBytes r.alpha ++ word32ToBytes r.beta⟩,
   ⟨0x502, 4, word32ToBytes r.gamma⟩,
   ⟨0x503, 8, word32ToBytes r.ax ++ word32ToBytes r.ay⟩,
   ⟨0x504, 4, word32ToBytes r.az⟩]

/-- sendIMUtoCAN of src/pico/src/main.cpp lines 26-56.  ci is the
can_initialized flag, read on every call; sendOk i is the result of the
i-th CAN0.sendMsgBuf call (CAN_OK or not).  Returns the frames whose
transmission was attempted and the lines printed to the WebUSB
transport.  When the flag is unset it prints ERR:NO_CAN_INIT and
returns before building any frame; otherwise all three sends are
attempted unconditionally, success is the conjunction of the three
results, and a single ACK or ERR:CAN_SEND line reports the aggregate. -/
def sendIMUtoCAN (ci : Bool) (sendOk : Nat → Bool) (r : IMURecord) :
    List CanFrame × List String :=
  if ci then
    (picoFrames r,
     [if sendOk 0 && sendOk 1 && sendOk 2 then "ACK" else "ERR:CAN_SEND"])
  else
    ([], ["ERR:NO_CAN_INIT"])

/-- Whitespace test of the C isspace function used by Arduino
String::trim: space, tab, newline, vertical tab, form feed, carriage
return. -/
def isSpaceChar (c : Char) : Bool :=
  c = ' ' || c = '\t' || c = '\n' || c = Char.ofNat 11 || c = Char.ofNat 12 || c = '\r'

/-- Arduino String::trim: remove leading and trailing isspace
characters (src/pico/src/main.cpp line 157). -/
def trimChars (s : List Char) : List Char :=
  ((s.dropWhile isSpaceChar).reverse.dropWhile isSpaceChar).reverse

/-- The control keyword compared against the trimmed line
(src/pico/src/main.cpp line 158). -/
def pingChars : List Char := ['p', 'i', 'n', 'g']

/-- The CSV token-capturing loop of src/pico/src/main.cpp lines
164-175: scan left to right while fewer than six tokens are captured;
a comma captures the accumulated token; after the scan the trailing
remainder is captured when it is nonempty and fewer than six tokens
were captured.  acc is the text since the last capture
(substring(startPos, i)) and count the number of captures so far. -/
def goTokens : List Char → List Char → Nat → List (List Char)
  | [], acc, count => if count < 6 ∧ acc ≠ [] then [acc] else []
  | c :: rest, acc, count =>
      if count < 6 then
        if c = ',' then acc :: goTokens rest [] (count + 1)
        else goTokens rest (acc ++ [c]) count
      else []

/-- The tokens the pico CSV loop captures from a (trimmed) line. -/
def picoTokens (s : List Char) : List (List Char) := goTokens s [] 0

/-- The non-control branch of the pico line handler
(src/pico/src/main.cpp lines 163-179): tokenize, convert each token
with toF (modelling String::toFloat), and hand the record to
sendIMUtoCAN only when exactly six tokens were captured; otherwise do
nothing at all. -/
def picoParseBranch (ci : Bool) (sendOk : Nat → Bool)
    (toF : List Char → Nat) (t : List Char) : List CanFrame × List String :=
  let toks := picoTokens t
  if toks.length = 6 then sendIMUtoCAN ci sendOk (recordOfVals (toks.map toF))
  else ([], [])

/-- The complete pico line handler (src/pico/src/main.cpp lines
156-180): trim the buffered line; an exact match of "ping" replies
PONG with no CAN traffic; anything else goes to the CSV branch. -/
def picoHandleLine (ci : Bool) (sendOk : Nat → Bool)
    (toF : List Char → Nat) (buf : List Char) : List CanFrame × List String :=
  let t := trimChars buf
  if t = pingChars then ([], ["PONG"])
  else picoParseBranch ci sendOk toF t

/-- The record the pico loop parses out of a line: tokens of the
trimmed line, converted and zero-padded into the vals array. -/
def parsedRecord (toF : List Char → Nat) (line : List Char) : IMURecord :=
  recordOfVals ((picoTokens (trimChars line)).map toF)

/-- Mutable state of the pico loop that the byte path touches: the
Arduino String inputBuffer, the can_initialized flag, and the WebUSB
link state usb_web.connected(). -/
structure PicoState where
  inputBuffer : List Char
  canInit : Bool
  connected : Bool
deriving DecidableEq, Repr

/-- Observable effects of processing one byte on the pico: bytes
written to UART2 (Serial2), lines written to the WebUSB transport, and
CAN frames whose transmission was attempted. -/
structure PicoEffects where
  uart2 : List Char
  web : List String
  frames : List CanFrame
deriving DecidableEq, Repr

/-- Processing of one byte read from WebUSB in the pico loop
(src/pico/src/main.cpp lines 145-185).  The byte is forwarded to UART2
first, unconditionally.  '\r' is then ignored; '\n' hands the buffer
to the line handler and resets it; any other byte is appended to the
buffer (an Arduino String, which grows without a fixed bound). -/
def picoProcessByte (st : PicoState) (sendOk : Nat → Bool)
    (toF : List Char → Nat) (c : Char) : PicoState × PicoEffects :=
  if c = '\r' then (st, ⟨[c], [], []⟩)
  else if c = '\n' then
    let out := picoHandleLine st.canInit sendOk toF st.inputBuffer
    ({ st with inputBuffer := [] }, ⟨[c], out.2, out.1⟩)
  else
    ({ st with inputBuffer := st.inputBuffer ++ [c] }, ⟨[c], [], []⟩)

/-- Iterate picoProcessByte over an input byte stream, returning the
final state. -/
def picoRun (sendOk : Nat → Bool) (toF : List Char → Nat) :
    PicoState → List Char → PicoState
  | st, [] => st
  | st, c :: cs => picoRun sendOk toF (picoProcessByte st sendOk toF c).1 cs

/-- Concatenated UART2 output of the pico loop over an input byte
stream. -/
def picoUartOut (sendOk : Nat → Bool) (toF : List Char → Nat) :
    PicoState → List Char → List Char
  | _, [] => []
  | st, c :: cs =>
      (picoProcessByte st sendOk toF c).2.uart2 ++
        picoUartOut sendOk toF (picoProcessByte st sendOk toF c).1 cs

/-- The periodic heartbeat of the pico loop (src/pico/src/main.cpp
lines 134-142): when the 3-second timer elapses, HEARTBEAT is written
only if the WebUSB link reports connected. -/
def heartbeatTick (connected : Bool) : List String :=
  if connected then ["HEARTBEAT"] else []

/-- The UART2→WebUSB relay of the pico loop (src/pico/src/main.cpp
lines 188-194): each relayed byte is written only if the link reports
connected. -/
def uartRelay (connected : Bool) (c : Char) : List Char :=
  if connected then [c] else []

/-- One byte fed to the stm32 line assembler (src/stm32/src/main.cpp
lines 36-45).  '\n' and '\r' both terminate: the buffer is delivered
when nonempty (rx_index > 0) and reset.  Otherwise the byte is stored
only while fewer than 127 bytes are buffered (rx_index <
sizeof(rx_buffer) - 1 with a 128-byte array); at capacity it is
silently dropped. -/
def stm32Feed (buf : List Char) (c : Char) : List Char × Option (List Char) :=
  if c = '\n' ∨ c = '\r' then
    ([], if buf = [] then none else some buf)
  else if buf.length < 127 then (buf ++ [c], none)
  else (buf, none)

/-- Run the stm32 assembler over an input byte stream: final buffer and
the list of delivered lines, in order. -/
def stm32Run : List Char → List Char → List Char × List (List Char)
  | buf, [] => (buf, [])
  | buf, c :: cs =>
      ((stm32Run (stm32Feed buf c).1 cs).1,
        (stm32Feed buf c).2.toList ++ (stm32Run (stm32Feed buf c).1 cs).2)

/-- Replace each '\n' of a byte stream by the pair '\r' '\n', turning
'\n'-terminated input into '\r\n'-terminated input. -/
def expandCRLF : List Char → List Char
  | [] => []
  | c :: cs => if c = '\n' then '\r' :: '\n' :: expandCRLF cs else c :: expandCRLF cs

lemma picoProcessByte_uart2 (st : PicoState) (sendOk : Nat → Bool)
    (toF : List Char → Nat) (c : Char) :
    (picoProcessByte st sendOk toF c).2.uart2 = [c] := by
  unfold picoProcessByte
  split_ifs <;> rfl

lemma picoProcessByte_web_connected (buf : List Char) (ci a b : Bool)
    (sendOk : Nat → Bool) (toF : List Char → Nat) (c : Char) :
    (picoProcessByte ⟨buf, ci, a⟩ sendOk toF c).2.web =
      (picoProcessByte ⟨buf, ci, b⟩ sendOk toF c).2.web := by
  unfold picoProcessByte
  split_ifs <;> rfl

lemma stm32Run_expandCRLF (s : List Char) : ∀ buf : List Char,
    (∀ c ∈ s, c ≠ '\r') →
    stm32Run buf (expandCRLF s) = stm32Run buf s := by
  induction s with
  | nil => intro buf _; rfl
  | cons c cs ih =>
    intro buf h
    have hc : c ≠ '\r' := h c (List.mem_cons_self c cs)
    have hcs : ∀ x ∈ cs, x ≠ '\r' := fun x hx => h x (List.mem_cons_of_mem c hx)
    by_cases hn : c = '\n'
    · subst hn
      simp only [expandCRLF, if_pos rfl, stm32Run]
      simp [stm32Feed, ih _ hcs]
    · simp only [expandCRLF, if_neg hn, stm32Run]
      rw [ih _ hcs]

/-- Claim C6: if the CAN transmit primitive is not initialized, the
packetizer transmits zero frames and reports ERR:NO_CAN_INIT; the
can_initialized flag is an argument read afresh on every call, and when
it is set the call attempts the full frame sequence. -/
theorem spec_c6 : ∀ (sendOk : Nat → Bool) (r : IMURecord),
    sendIMUtoCAN false sendOk r = ([], ["ERR:NO_CAN_INIT"]) ∧
    (sendIMUtoCAN true sendOk r).1 = picoFrames r := by
  intro so r
  exact ⟨rfl, rfl⟩

/-- Claim C7: with CAN initialized, all three frames are attempted in
order regardless of individual failures (the attempted sequence is the
full picoFrames list, of length 3, for every outcome oracle), and the
reply is ACK exactly when all three sends succeeded, ERR:CAN_SEND
exactly when at least one failed. -/
theorem spec_c7 : ∀ (sendOk : Nat → Bool) (r : IMURecord),
    (sendIMUtoCAN true sendOk r).1 = picoFrames r ∧
    (picoFrames r).length = 3 ∧
    ((sendIMUtoCAN true sendOk r).2 = ["ACK"] ↔
      (sendOk 0 = true ∧ sendOk 1 = true ∧ sendOk 2 = true)) ∧
    ((sendIMUtoCAN true sendOk r).2 = ["ERR:CAN_SEND"] ↔
      ¬(sendOk 0 = true ∧ sendOk 1 = true ∧ sendOk 2 = true)) := by
  intro so r
  refine ⟨rfl, rfl, ?_, ?_⟩ <;>
    cases h0 : so 0 <;> cases h1 : so 1 <;> cases h2 : so 2 <;>
      simp [sendIMUtoCAN, h0, h1, h2]

/-- Claim C8: control-word recognition is by case-sensitive equality of
the trimmed line: "ping" and " ping " (which trims to "ping") reply
PONG with no CAN frames, while "PING" does not match and is handed to
the numeric-record branch, whose outcome carries no PONG. -/
theorem spec_c8 : ∀ (ci : Bool) (sendOk : Nat → Bool) (toF : List Char → Nat),
    picoHandleLine ci sendOk toF pingChars = ([], ["PONG"]) ∧
    picoHandleLine ci sendOk toF [' ', 'p', 'i', 'n', 'g', ' '] = ([], ["PONG"]) ∧
    picoHandleLine ci sendOk toF ['P', 'I', 'N', 'G'] =
      picoParseBranch ci sendOk toF (trimChars ['P', 'I', 'N', 'G']) ∧
    picoHandleLine ci sendOk toF ['P', 'I', 'N', 'G'] = ([], []) := by
  intro ci so toF
  refine ⟨rfl, rfl, rfl, rfl⟩

/-- Claim C10: every byte read from the WebUSB transport is forwarded
unchanged to UART2, whatever the byte and the parser state, and over a
whole input stream the forwarded UART2 byte sequence equals the input
byte sequence. -/
theorem spec_c10 : ∀ (st : PicoState) (sendOk : Nat → Bool)
    (toF : List Char → Nat) (c : Char) (input : List Char),
    (picoProcessByte st sendOk toF c).2.uart2 = [c] ∧
    picoUartOut sendOk toF st input = input := by
  intro st so toF c input
  refine ⟨picoProcessByte_uart2 st so toF c, ?_⟩
  induction input generalizing st with
  | nil => rfl
  | cons b bs ih =>
    simp [picoUartOut, picoProcessByte_uart2, ih]

/-- Claim C5 fails on the code: handling the line "ping" writes PONG to
the WebUSB transport even though the link state is disconnected — the
response path has no connected() check. -/
theorem spec_c5_counterexample :
    ((picoProcessByte ⟨pingChars, true, false⟩ (fun _ => true) (fun _ => 0)
        '\n').2.web = ["PONG"]) ∧
    (⟨pingChars, true, false⟩ : PicoState).connected = false := by
  exact ⟨rfl, rfl⟩

/-- Claim C5 amended: only the periodic HEARTBEAT and the UART2→WebUSB
relay are gated on the link state (dropped silently when disconnected);
the ACK / ERR:* / PONG responses of the byte-processing path are
written unconditionally — their output does not depend on the connected
flag at all. -/
theorem spec_c5_amended : ∀ (c : Char) (buf : List Char) (ci : Bool)
    (sendOk : Nat → Bool) (toF : List Char → Nat),
    heartbeatTick false = [] ∧
    uartRelay false c = [] ∧
    (picoProcessByte ⟨buf, ci, false⟩ sendOk toF c).2.web =
      (picoProcessByte ⟨buf, ci, true⟩ sendOk toF c).2.web := by
  intro c buf ci so toF
  exact ⟨rfl, rfl, picoProcessByte_web_connected buf ci false true so toF c⟩

/-- Claim C4 fails on the stm32 hop: feeding '\r' to the assembler with
a nonempty buffer completes and delivers a line, so '\r' is not a no-op
continuation there. -/
theorem spec_c4_counterexample :
    stm32Feed ['a'] '\r' = ([], some ['a']) ∧
    (stm32Feed ['a'] '\r').2 ≠ none := by
  exact ⟨rfl, by decide⟩

/-- Claim C4 amended: on the pico hop '\r' is a no-op continuation
(state unchanged, nothing stored, no line completed, only the
unconditional UART forward); on the stm32 hop '\r' acts as a terminator
like '\n', but because empty completions deliver nothing,
'\r\n'-terminated input still yields exactly the same delivered lines
as '\n'-terminated input. -/
theorem spec_c4_amended :
    (∀ (st : PicoState) (sendOk : Nat → Bool) (toF : List Char → Nat),
      picoProcessByte st sendOk toF '\r' = (st, ⟨['\r'], [], []⟩)) ∧
    (∀ (s buf : List Char), (∀ c ∈ s, c ≠ '\r') →
      stm32Run buf (expandCRLF s) = stm32Run buf s) := by
  exact ⟨fun st so toF => rfl, fun s buf h => stm32Run_expandCRLF s buf h⟩

theorem spec_c4_witness :
    (∀ c ∈ ['a', '\n'], c ≠ '\r') ∧
    stm32Run [] (expandCRLF ['a', '\n']) = stm32Run [] ['a', '\n'] :=
  ⟨by decide, spec_c4_amended.2 ['a', '\n'] [] (by decide)⟩

/-- Claim C1 fails on the code: the short record "1.0,2.0,3.0" parses
to only three captured tokens, and because the pico loop packetizes
only when exactly six tokens were captured, it produces no CAN frames
and no reply at all — the record is not packetized with zero-filled
trailing fields. -/
theorem spec_c1_counterexample :
    picoHandleLine true (fun _ => true) (fun _ => 0)
        ['1', '.', '0', ',', '2', '.', '0', ',', '3', '.', '0'] = ([], []) ∧
    (picoTokens ['1', '.', '0', ',', '2', '.', '0', ',', '3', '.', '0']).length
      = 3 := by
  exact ⟨rfl, rfl⟩

/-- Claim C1 amended: a line with fewer than six captured tokens never
fails (no crash), but it is silently dropped rather than packetized:
zero CAN frames are attempted, and unless the line is the "ping"
control word nothing is written back either. -/
theorem spec_c1_amended (line : List Char) (ci : Bool) (sendOk : Nat → Bool)
    (toF : List Char → Nat)
    (h : (picoTokens (trimChars line)).length < 6) :
    (picoHandleLine ci sendOk toF line).1 = [] ∧
    (trimChars line ≠ pingChars →
      picoHandleLine ci sendOk toF line = ([], [])) := by
  by_cases hp : trimChars line = pingChars
  · simp [picoHandleLine, hp]
  · have h6 : ¬(picoTokens (trimChars line)).length = 6 := by omega
    simp [picoHandleLine, picoParseBranch, hp, h6]

theorem spec_c1_witness :
    (picoTokens (trimChars
        ['1', '.', '0', ',', '2', '.', '0', ',', '3', '.', '0'])).length < 6 ∧
    (picoHandleLine true (fun _ => true) (fun _ => 0)
        ['1', '.', '0', ',', '2', '.', '0', ',', '3', '.', '0']).1 = [] :=
  ⟨by decide,
    (spec_c1_amended ['1', '.', '0', ',', '2', '.', '0', ',', '3', '.', '0']
      true (fun _ => true) (fun _ => 0) (by decide)).1⟩

lemma picoRun_nonterm (sendOk : Nat → Bool) (toF : List Char → Nat) (c : Char)
    (hr : c ≠ '\r') (hn : c ≠ '\n') : ∀ (n : Nat) (st : PicoState),
    (picoRun sendOk toF st (List.replicate n c)).inputBuffer =
      st.inputBuffer ++ List.replicate n c := by
  intro n
  induction n with
  | zero => intro st; simp [picoRun]
  | succ m ih =>
    intro st
    have hstep : picoProcessByte st sendOk toF c =
        ({ st with inputBuffer := st.inputBuffer ++ [c] }, ⟨[c], [], []⟩) := by
      unfold picoProcessByte
      rw [if_neg hr, if_neg hn]
    rw [List.replicate_succ, picoRun, hstep]
    rw [ih { st with inputBuffer := st.inputBuffer ++ [c] }]
    simp [List.replicate_succ]

/-- Claim C3 fails on the pico hop: its line buffer is a dynamically
growing Arduino String with no fixed capacity — after 300 non-terminator
bytes the buffer holds all 300 of them, exceeding the 128–256 byte
capacity range the specification attributes to the line buffer; no byte
was dropped. -/
theorem spec_c3_counterexample :
    (picoRun (fun _ => true) (fun _ => 0) ⟨[], true, true⟩
        (List.replicate 300 'a')).inputBuffer.length = 300 ∧
    256 < 300 := by
  constructor
  · rw [picoRun_nonterm (fun _ => true) (fun _ => 0) 'a' (by decide) (by decide)
        300 ⟨[], true, true⟩]
    rw [List.nil_append, List.length_replicate]
  · decide

lemma stm32Feed_fst_length (buf : List Char) (c : Char) (h : buf.length ≤ 127) :
    (stm32Feed buf c).1.length ≤ 127 := by
  by_cases ht : c = '\n' ∨ c = '\r'
  · simp [stm32Feed, ht]
  · by_cases hroom : buf.length < 127
    · simp only [stm32Feed, if_neg ht, if_pos hroom, List.length_append,
        List.length_cons, List.length_nil]
      omega
    · simpa [stm32Feed, if_neg ht, if_neg hroom] using h

lemma stm32Feed_snd_length (buf : List Char) (c : Char) (h : buf.length ≤ 127) :
    ∀ l ∈ (stm32Feed buf c).2.toList, l.length ≤ 127 := by
  intro l hl
  unfold stm32Feed at hl
  by_cases ht : c = '\n' ∨ c = '\r'
  · rw [if_pos ht] at hl
    by_cases hb : buf = []
    · rw [if_pos hb] at hl
      simp at hl
    · rw [if_neg hb] at hl
      simp at hl
      rw [hl]
      exact h
  · rw [if_neg ht] at hl
    by_cases hroom : buf.length < 127
    · rw [if_pos hroom] at hl
      simp at hl
    · rw [if_neg hroom] at hl
      simp at hl

lemma stm32Run_bounded : ∀ (input buf : List Char), buf.length ≤ 127 →
    (stm32Run buf input).1.length ≤ 127 ∧
    ∀ l ∈ (stm32Run buf input).2, l.length ≤ 127 := by
  intro input
  induction input with
  | nil => intro buf h; exact ⟨h, by simp [stm32Run]⟩
  | cons c cs ih =>
    intro buf h
    rcases ih (stm32Feed buf c).1 (stm32Feed_fst_length buf c h) with ⟨h1, h2⟩
    refine ⟨h1, ?_⟩
    intro l hl
    simp only [stm32Run, List.mem_append] at hl
    rcases hl with hl | hl
    · exact stm32Feed_snd_length buf c h l hl
    · exact h2 l hl

/-- Claim C3 amended: the fixed-capacity invariant holds of the stm32
assembler (whose 128-byte array stores at most 127 data bytes): from
any in-bounds state, the buffer never exceeds 127 bytes, every line it
delivers has length at most 127, a non-terminator byte arriving with
the buffer full is silently dropped leaving the state unchanged, and a
terminator resets the buffer to empty.  The pico hop's buffer, by
contrast, is a dynamically growing string with no fixed capacity. -/
theorem spec_c3_amended (input buf : List Char) (h : buf.length ≤ 127) :
    ((stm32Run buf input).1.length ≤ 127 ∧
      ∀ l ∈ (stm32Run buf input).2, l.length ≤ 127) ∧
    (∀ (c : Char) (fullBuf : List Char), fullBuf.length = 127 →
      c ≠ '\n' → c ≠ '\r' → stm32Feed fullBuf c = (fullBuf, none)) ∧
    (∀ b : List Char, (stm32Feed b '\n').1 = []) := by
  refine ⟨stm32Run_bounded input buf h, ?_, ?_⟩
  · intro c fullBuf hfull hn hr
    unfold stm32Feed
    rw [if_neg (by simp [hn, hr]), if_neg (by omega)]
  · intro b
    simp [stm32Feed]

theorem spec_c3_witness :
    ([] : List Char).length ≤ 127 ∧
    (((stm32Run [] ['a', '\n']).1.length ≤ 127 ∧
        ∀ l ∈ (stm32Run [] ['a', '\n']).2, l.length ≤ 127) ∧
      (∀ (c : Char) (fullBuf : List Char), fullBuf.length = 127 →
        c ≠ '\n' → c ≠ '\r' → stm32Feed fullBuf c = (fullBuf, none)) ∧
      (∀ b : List Char, (stm32Feed b '\n').1 = [])) :=
  ⟨by decide, spec_c3_amended ['a', '\n'] [] (by decide)⟩

lemma bytesToWords_word32 (w : Nat) (h : w < 2 ^ 32) (rest : List Byte) :
    bytesToWords (word32ToBytes w ++ rest) = w :: bytesToWords rest := by
  simp only [word32ToBytes, List.cons_append, List.nil_append, bytesToWords]
  congr 1
  omega

lemma bytesToWords_word32_nil (w : Nat) (h : w < 2 ^ 32) :
    bytesToWords (word32ToBytes w) = [w] := by
  simpa using bytesToWords_word32 w h []

lemma bytesToWords_six (a b g x y z : Nat) (ha : a < 2 ^ 32) (hb : b < 2 ^ 32)
    (hg : g < 2 ^ 32) (hx : x < 2 ^ 32) (hy : y < 2 ^ 32) (hz : z < 2 ^ 32) :
    bytesToWords (word32ToBytes a ++ (word32ToBytes b ++ (word32ToBytes g ++
      (word32ToBytes x ++ (word32ToBytes y ++ word32ToBytes z))))) =
      [a, b, g, x, y, z] := by
  rw [bytesToWords_word32 a ha, bytesToWords_word32 b hb,
    bytesToWords_word32 g hg, bytesToWords_word32 x hx,
    bytesToWords_word32 y hy, bytesToWords_word32_nil z hz]

lemma getD_lt_bound (vs : List Nat) (i B : Nat) (hB : 0 < B)
    (h : ∀ v ∈ vs, v < B) : vs.getD i 0 < B := by
  induction vs generalizing i with
  | nil => simpa [List.getD] using hB
  | cons v tl ih =>
    cases i with
    | zero => exact List.getD_cons_zero ▸ h v (List.mem_cons_self v tl)
    | succ j =>
      rw [List.getD_cons_succ]
      exact ih j (fun x hx => h x (List.mem_cons_of_mem v hx))

/-- Claim C2: a line that parses to a full six-token record is handed to
the packetizer, which on the pico builds exactly 3 frames (IDs
0x501/0x502/0x503, 8 bytes each) and on the stm32 exactly 4 frames (IDs
0x501/0x502/0x503/0x504, lengths 8/4/8/4, fields (alpha,beta), (gamma),
(ax,ay), (az)); in both layouts the concatenated payload bytes,
reinterpreted as consecutive little-endian 32-bit words, are bit-exactly
the six original field words. -/
theorem spec_c2 (line : List Char) (toF : List Char → Nat) (sendOk : Nat → Bool)
    (hbound : ∀ s, toF s < 2 ^ 32)
    (h6 : (picoTokens (trimChars line)).length = 6)
    (hp : trimChars line ≠ pingChars) :
    (picoHandleLine true sendOk toF line).1 = picoFrames (parsedRecord toF line) ∧
    (picoFrames (parsedRecord toF line)).length = 3 ∧
    frameIds (picoFrames (parsedRecord toF line)) = [0x501, 0x502, 0x503] ∧
    frameLens (picoFrames (parsedRecord toF line)) = [8, 8, 8] ∧
    bytesToWords (payloadBytes (picoFrames (parsedRecord toF line))) =
      recordWords (parsedRecord toF line) ∧
    (stm32Frames (parsedRecord toF line)).length = 4 ∧
    frameIds (stm32Frames (parsedRecord toF line)) = [0x501, 0x502, 0x503, 0x504] ∧
    frameLens (stm32Frames (parsedRecord toF line)) = [8, 4, 8, 4] ∧
    bytesToWords (payloadBytes (stm32Frames (parsedRecord toF line))) =
      recordWords (parsedRecord toF line) := by
  have hv : ∀ v ∈ (picoTokens (trimChars line)).map toF, v < 2 ^ 32 := by
    intro v hvm
    rcases List.mem_map.1 hvm with ⟨s, _, rfl⟩
    exact hbound s
  have hB : 0 < 2 ^ 32 := by norm_num
  have h0 := getD_lt_bound _ 0 _ hB hv
  have h1 := getD_lt_bound _ 1 _ hB hv
  have h2 := getD_lt_bound _ 2 _ hB hv
  have h3 := getD_lt_bound _ 3 _ hB hv
  have h4 := getD_lt_bound _ 4 _ hB hv
  have h5 := getD_lt_bound _ 5 _ hB hv
  refine ⟨?_, rfl, rfl, rfl, ?_, rfl, rfl, rfl, ?_⟩
  · simp [picoHandleLine, picoParseBranch, hp, h6, sendIMUtoCAN, parsedRecord]
  · simp only [payloadBytes, picoFrames, parsedRecord, recordOfVals, recordWords,
      List.map_cons, List.map_nil, List.flatten, List.append_assoc, List.append_nil]
    exact bytesToWords_six _ _ _ _ _ _ h0 h1 h2 h3 h4 h5
  · simp only [payloadBytes, stm32Frames, parsedRecord, recordOfVals, recordWords,
      List.map_cons, List.map_nil, List.flatten, List.append_assoc, List.append_nil]
    exact bytesToWords_six _ _ _ _ _ _ h0 h1 h2 h3 h4 h5

theorem spec_c2_witness :
    (∀ s : List Char, (fun _ : List Char => 1065353216) s < 2 ^ 32) ∧
    (picoTokens (trimChars
        ['1', ',', '2', ',', '3', ',', '4', ',', '5', ',', '6'])).length = 6 ∧
    trimChars ['1', ',', '2', ',', '3', ',', '4', ',', '5', ',', '6'] ≠ pingChars ∧
    bytesToWords (payloadBytes (picoFrames (parsedRecord
        (fun _ : List Char => 1065353216)
        ['1', ',', '2', ',', '3', ',', '4', ',', '5', ',', '6']))) =
      recordWords (parsedRecord (fun _ : List Char => 1065353216)
        ['1', ',', '2', ',', '3', ',', '4', ',', '5', ',', '6']) :=
  ⟨fun _ => by norm_num, by decide, by decide,
    (spec_c2 ['1', ',', '2', ',', '3', ',', '4', ',', '5', ',', '6']
      (fun _ : List Char => 1065353216) (fun _ => true)
      (fun _ => by norm_num) (by decide) (by decide)).2.2.2.2.1⟩

/-- Number of commas in a line. -/
def commaCount (s : List Char) : Nat := s.count ','

/-- Full comma split of a line into tokens (no arity limit, trailing
empties kept): the standard reading of the CSV separator. -/
def splitAllAux : List Char → List Char → List (List Char)
  | [], acc => [acc]
  | c :: rest, acc =>
      if c = ',' then acc :: splitAllAux rest []
      else splitAllAux rest (acc ++ [c])

/-- Full comma split of a line starting from an empty accumulator. -/
def splitAll (s : List Char) : List (List Char) := splitAllAux s []

/-- Rejoin tokens with commas (inverse of the full split). -/
def joinC : List (List Char) → List Char
  | [] => []
  | [t] => t
  | t :: u :: rest => t ++ ',' :: joinC (u :: rest)

/-- Modelled from the spec: the token list described by the
specification for a line with extra commas — the first five
comma-separated tokens, with the whole remainder (its later commas
included) folded into the sixth token. -/
def specFoldTokens (s : List Char) : List (List Char) :=
  (splitAll s).take 5 ++ [joinC ((splitAll s).drop 5)]

lemma goTokens_sixDone (s acc : List Char) : goTokens s acc 6 = [] := by
  cases s <;> simp [goTokens]

lemma goTokens_cons_comma (rest acc : List Char) (count : Nat) (h : count < 6) :
    goTokens (',' :: rest) acc count = acc :: goTokens rest [] (count + 1) := by
  simp [goTokens, h]

lemma goTokens_cons_other (c : Char) (rest acc : List Char) (count : Nat)
    (h : count < 6) (hc : c ≠ ',') :
    goTokens (c :: rest) acc count = goTokens rest (acc ++ [c]) count := by
  simp [goTokens, h, hc]

lemma splitAllAux_cons_comma (rest acc : List Char) :
    splitAllAux (',' :: rest) acc = acc :: splitAllAux rest [] := by
  simp [splitAllAux]

lemma splitAllAux_cons_other (c : Char) (rest acc : List Char) (hc : c ≠ ',') :
    splitAllAux (c :: rest) acc = splitAllAux rest (acc ++ [c]) := by
  simp [splitAllAux, hc]

lemma commaCount_cons_comma (rest : List Char) :
    commaCount (',' :: rest) = commaCount rest + 1 := by
  simp [commaCount, List.count_cons]

lemma commaCount_cons_other (c : Char) (rest : List Char) (hc : c ≠ ',') :
    commaCount (c :: rest) = commaCount rest := by
  simp [commaCount, List.count_cons, hc]

lemma splitAllAux_length (s : List Char) : ∀ acc : List Char,
    (splitAllAux s acc).length = commaCount s + 1 := by
  induction s with
  | nil => intro acc; simp [splitAllAux, commaCount]
  | cons c rest ih =>
    intro acc
    by_cases hc : c = ','
    · subst hc
      rw [splitAllAux_cons_comma, commaCount_cons_comma]
      simp [ih]
    · rw [splitAllAux_cons_other c rest acc hc, commaCount_cons_other c rest hc]
      exact ih (acc ++ [c])

lemma goTokens_eq_take (s : List Char) : ∀ (acc : List Char) (count : Nat),
    count < 6 → 6 - count ≤ commaCount s →
    goTokens s acc count = (splitAllAux s acc).take (6 - count) := by
  induction s with
  | nil =>
    intro acc count h1 h2
    simp [commaCount] at h2
    omega
  | cons c rest ih =>
    intro acc count h1 h2
    by_cases hc : c = ','
    · subst hc
      rw [commaCount_cons_comma] at h2
      rw [goTokens_cons_comma rest acc count h1, splitAllAux_cons_comma]
      by_cases h6 : count + 1 < 6
      · rw [ih [] (count + 1) h6 (by omega)]
        have hstep : 6 - count = (6 - (count + 1)) + 1 := by omega
        rw [hstep, List.take_succ_cons]
      · have hc6 : count + 1 = 6 := by omega
        have ht : 6 - count = 1 := by omega
        rw [hc6, goTokens_sixDone rest [], ht, List.take_succ_cons, List.take_zero]
    · rw [commaCount_cons_other c rest hc] at h2
      rw [goTokens_cons_other c rest acc count h1 hc,
        splitAllAux_cons_other c rest acc hc]
      exact ih (acc ++ [c]) count h1 h2

lemma picoTokens_take (s : List Char) (h : 6 ≤ commaCount s) :
    picoTokens s = (splitAll s).take 6 :=
  goTokens_eq_take s [] 0 (by omega) (by omega)

lemma picoTokens_length_six (s : List Char) (h : 6 ≤ commaCount s) :
    (picoTokens s).length = 6 := by
  rw [picoTokens_take s h, List.length_take, splitAll, splitAllAux_length]
  omega

lemma toF_joinC (toF : List Char → Nat)
    (hcomma : ∀ t r, toF (t ++ ',' :: r) = toF t)
    (t : List Char) (rest : List (List Char)) :
    toF (joinC (t :: rest)) = toF t := by
  cases rest with
  | nil => rfl
  | cons u rs =>
    show toF (t ++ ',' :: joinC (u :: rs)) = toF t
    exact hcomma t (joinC (u :: rs))

lemma map_toF_take_eq_specFold (s : List Char) (toF : List Char → Nat)
    (hcomma : ∀ t r, toF (t ++ ',' :: r) = toF t)
    (h : 6 ≤ commaCount s) :
    ((splitAll s).take 6).map toF = (specFoldTokens s).map toF := by
  have hlen : (splitAll s).length = commaCount s + 1 := splitAllAux_length s []
  have h5 : 5 < (splitAll s).length := by omega
  have htake : (splitAll s).take 6 =
      (splitAll s).take 5 ++ [(splitAll s)[5]] := by
    rw [List.take_succ, List.getElem?_eq_getElem h5]
    rfl
  have hdrop : (splitAll s).drop 5 = (splitAll s)[5] :: (splitAll s).drop 6 :=
    List.drop_eq_getElem_cons h5
  rw [htake]
  unfold specFoldTokens
  rw [hdrop]
  simp only [List.map_append, List.map_cons, List.map_nil]
  rw [toF_joinC toF hcomma]

/-- Claim C9: for a line with more than five commas the parse does not
fail: exactly six tokens are captured, the seventh and later commas are
ignored, and — because numeric conversion stops at the first comma —
the resulting six field values coincide with the spec's description in
which the remainder is folded into the sixth token; the line handler
packs the resulting six-field record. -/
theorem spec_c9 (line : List Char) (ci : Bool) (sendOk : Nat → Bool)
    (toF : List Char → Nat)
    (hcomma : ∀ t r, toF (t ++ ',' :: r) = toF t)
    (hc : 5 < commaCount (trimChars line))
    (hp : trimChars line ≠ pingChars) :
    (picoTokens (trimChars line)).length = 6 ∧
    (picoTokens (trimChars line)).map toF =
      (specFoldTokens (trimChars line)).map toF ∧
    picoHandleLine ci sendOk toF line =
      sendIMUtoCAN ci sendOk (parsedRecord toF line) := by
  have h6 : 6 ≤ commaCount (trimChars line) := by omega
  have hlen := picoTokens_length_six (trimChars line) h6
  refine ⟨hlen, ?_, ?_⟩
  · rw [picoTokens_take (trimChars line) h6]
    exact map_toF_take_eq_specFold (trimChars line) toF hcomma h6
  · simp [picoHandleLine, picoParseBranch, hp, hlen, parsedRecord]

theorem spec_c9_witness :
    (∀ t r : List Char, (fun _ : List Char => 7) (t ++ ',' :: r)
        = (fun _ : List Char => 7) t) ∧
    5 < commaCount (trimChars
        ['1', ',', '2', ',', '3', ',', '4', ',', '5', ',', '6', ',', '7']) ∧
    (picoTokens (trimChars
        ['1', ',', '2', ',', '3', ',', '4', ',', '5', ',', '6', ',', '7'])).length
      = 6 :=
  ⟨fun _ _ => rfl, by decide,
    (spec_c9 ['1', ',', '2', ',', '3', ',', '4', ',', '5', ',', '6', ',', '7']
      true (fun _ => true) (fun _ : List Char => 7)
      (fun _ _ => rfl) (by decide) (by decide)).1⟩
